import Mathlib

/-!
Shallow embedding of the `zcbit` bit-vector package (file `bitvec.go`).

Machine `uint64` words are modelled as `Nat`; every bitwise operation of the
source is translated to the corresponding `Nat` bitwise operation, and the
fact that a Go `uint64` is `< 2 ^ 64` is carried as an explicit well-formedness
hypothesis where a proof needs it.  Mutation of the underlying `[]uint64`
slice is modelled by explicit state passing: `Set`/`Clear` return the updated
vector together with the boolean result of the source.
-/

namespace zcbit

/-- Constant `allBits = 0xffffffffffffffff` from the source. -/
def allBits : Nat := 0xffffffffffffffff

/-- Translation of `swapUint64`: reverses the byte order of a 64-bit word. -/
def swapUint64 (n : Nat) : Nat :=
  ((n &&& 0x00000000000000FF) <<< 56) |||
  ((n &&& 0x000000000000FF00) <<< 40) |||
  ((n &&& 0x0000000000FF0000) <<< 24) |||
  ((n &&& 0x00000000FF000000) <<< 8) |||
  ((n &&& 0x000000FF00000000) >>> 8) |||
  ((n &&& 0x0000FF0000000000) >>> 24) |||
  ((n &&& 0x00FF000000000000) >>> 40) |||
  ((n &&& 0xFF00000000000000) >>> 56)

/-- Modelled from the spec: the `Endianness` enumeration (its defining Go file
is not part of `src/`).  The two recognized values are `little` and `big`;
`unknown` stands for any other value of the enumeration. -/
inductive Endianness where
  | unknown
  | little
  | big
deriving DecidableEq

/-- Translation of the `BitVec` struct: the `[]uint64` view plus the swap flag. -/
structure BitVec where
  vec : List Nat
  swap : Bool
deriving DecidableEq

/-- Well-formedness carried over from the Go type system: every stored word
fits in 64 bits. -/
def WF (b : BitVec) : Prop := ∀ w ∈ b.vec, w < 2 ^ 64

/-- Translation of `Test`. -/
def Test (b : BitVec) (i : Nat) : Bool :=
  let idx := i >>> 6
  if b.vec.length ≤ idx then
    false
  else if b.swap then
    let v := swapUint64 (b.vec.getD idx 0)
    decide (v &&& (1 <<< (i &&& 63)) ≠ 0)
  else
    decide (b.vec.getD idx 0 &&& (1 <<< (i &&& 63)) ≠ 0)

/-- Translation of `Set`; the returned pair is (updated vector, result). -/
def Set (b : BitVec) (i : Nat) : BitVec × Bool :=
  let idx := i >>> 6
  if b.vec.length ≤ idx then
    (b, false)
  else if b.swap then
    let v := swapUint64 (b.vec.getD idx 0) ||| (1 <<< (i &&& 63))
    ({ b with vec := b.vec.set idx (swapUint64 v) }, true)
  else
    ({ b with vec := b.vec.set idx (b.vec.getD idx 0 ||| (1 <<< (i &&& 63))) }, true)

/-- Translation of `Clear`; the Go expression `v &^= m` is `v &&& (m ^^^ allBits)` on
64-bit words. -/
def Clear (b : BitVec) (i : Nat) : BitVec × Bool :=
  let idx := i >>> 6
  if b.vec.length ≤ idx then
    (b, false)
  else if b.swap then
    let v := swapUint64 (b.vec.getD idx 0) &&& ((1 <<< (i &&& 63)) ^^^ allBits)
    ({ b with vec := b.vec.set idx (swapUint64 v) }, true)
  else
    ({ b with
        vec := b.vec.set idx (b.vec.getD idx 0 &&& ((1 <<< (i &&& 63)) ^^^ allBits)) },
     true)

/-- Model of `bits.TrailingZeros64` by fuelled recursion; `tzAux 64 0 = 64`. -/
def tzAux : Nat → Nat → Nat
  | 0, _ => 0
  | fuel + 1, n => if n % 2 = 1 then 0 else tzAux fuel (n / 2) + 1

/-- Model of `bits.TrailingZeros64`. -/
def trailingZeros64 (n : Nat) : Nat := tzAux 64 n

/-- Number of binary digits of `n` (0 for 0), by fuelled recursion. -/
def bitLenAux : Nat → Nat → Nat
  | 0, _ => 0
  | fuel + 1, n => if n = 0 then 0 else bitLenAux fuel (n / 2) + 1

/-- Model of `bits.LeadingZeros64`. -/
def leadingZeros64 (n : Nat) : Nat := 64 - bitLenAux 64 n

/-- Translation of the forward word scans (`for idx++; idx < len; idx++`):
first index (counting from `idx`) of a word of `l` satisfying `p`. -/
def scanIdx (p : Nat → Bool) : List Nat → Nat → Option Nat
  | [], _ => none
  | w :: rest, idx => if p w then some idx else scanIdx p rest (idx + 1)

/-- Translation of `FindFirstOne`; the Go result pair `(uint, bool)` is an `Option`. -/
def FindFirstOne (b : BitVec) (i : Nat) : Option Nat :=
  let idx := i >>> 6
  if b.vec.length ≤ idx then
    none
  else if b.swap then
    let v := swapUint64 (b.vec.getD idx 0) >>> (i &&& 63)
    if v ≠ 0 then
      some (i + trailingZeros64 v)
    else
      match scanIdx (fun w => decide (w ≠ 0)) (b.vec.drop (idx + 1)) (idx + 1) with
      | some j => some (j * 64 + trailingZeros64 (swapUint64 (b.vec.getD j 0)))
      | none => none
  else
    let v := b.vec.getD idx 0 >>> (i &&& 63)
    if v ≠ 0 then
      some (i + trailingZeros64 v)
    else
      match scanIdx (fun w => decide (w ≠ 0)) (b.vec.drop (idx + 1)) (idx + 1) with
      | some j => some (j * 64 + trailingZeros64 (b.vec.getD j 0))
      | none => none

/-- Translation of `FindFirstZero`; the Go expression `^v` is `v ^^^ allBits` on 64-bit
words. -/
def FindFirstZero (b : BitVec) (i : Nat) : Option Nat :=
  let idx := i >>> 6
  if b.vec.length ≤ idx then
    none
  else if b.swap then
    let offset := i &&& 63
    let v := swapUint64 (b.vec.getD idx 0) >>> offset
    let trail := trailingZeros64 (v ^^^ allBits)
    if trail < 64 - offset then
      some (i + trail)
    else
      match scanIdx (fun w => decide (w ≠ allBits)) (b.vec.drop (idx + 1)) (idx + 1) with
      | some j => some (j * 64 + trailingZeros64 (swapUint64 (b.vec.getD j 0) ^^^ allBits))
      | none => none
  else
    let offset := i &&& 63
    let v := b.vec.getD idx 0 >>> offset
    let trail := trailingZeros64 (v ^^^ allBits)
    if trail < 64 - offset then
      some (i + trail)
    else
      match scanIdx (fun w => decide (w ≠ allBits)) (b.vec.drop (idx + 1)) (idx + 1) with
      | some j => some (j * 64 + trailingZeros64 (b.vec.getD j 0 ^^^ allBits))
      | none => none

/-- Translation of the downward loop of `FindLastOne` (`for i := len; i > 0; i--`).
The source specializes the loop on the swap flag; here the flag is tested in
the loop body, which performs the same per-iteration computation. -/
def floLoop (sw : Bool) (vec : List Nat) : Nat → Option Nat
  | 0 => none
  | i + 1 =>
    let v := vec.getD i 0
    if v ≠ 0 then
      if sw then
        some ((i + 1) * 64 - leadingZeros64 (swapUint64 v) - 1)
      else
        some ((i + 1) * 64 - leadingZeros64 v - 1)
    else
      floLoop sw vec i

/-- Translation of `FindLastOne`. -/
def FindLastOne (b : BitVec) : Option Nat :=
  floLoop b.swap b.vec b.vec.length

/-- Construction errors of `New`. -/
inductive NewError where
  | invalidLength
  | invalidEndianness
  | unsupportedArch
deriving DecidableEq

/-- Modelled from the spec: reading one 64-bit word from 8 bytes of memory on
a little-endian host (the unsafe slice reinterpretation of the source has no Go
formula; byte `k` of the group contributes bits `8k .. 8k+7`). -/
def wordLE (b0 b1 b2 b3 b4 b5 b6 b7 : Nat) : Nat :=
  b0 ||| (b1 <<< 8) ||| (b2 <<< 16) ||| (b3 <<< 24) |||
  (b4 <<< 32) ||| (b5 <<< 40) ||| (b6 <<< 48) ||| (b7 <<< 56)

/-- Modelled from the spec: reading one 64-bit word from 8 bytes of memory on
a big-endian host: the byte order is reversed. -/
def wordBE (b0 b1 b2 b3 b4 b5 b6 b7 : Nat) : Nat :=
  wordLE b7 b6 b5 b4 b3 b2 b1 b0

/-- Modelled from the spec: the buffer reinterpretation of `New`, turning each
consecutive group of 8 bytes into one word in the byte order of the host. -/
def bytesToWords (host : Endianness) : List Nat → List Nat
  | b0 :: b1 :: b2 :: b3 :: b4 :: b5 :: b6 :: b7 :: rest =>
    (match host with
     | Endianness.big => wordBE b0 b1 b2 b3 b4 b5 b6 b7
     | _ => wordLE b0 b1 b2 b3 b4 b5 b6 b7) :: bytesToWords host rest
  | _ => []

/-- Translation of `New`; the host endianness (detected at start-up by code
outside `src/`) is passed as an explicit argument. -/
def New (bs : List Nat) (endian host : Endianness) : Except NewError BitVec :=
  if bs.length % 8 ≠ 0 then
    Except.error NewError.invalidLength
  else if endian ≠ Endianness.little ∧ endian ≠ Endianness.big then
    Except.error NewError.invalidEndianness
  else if host ≠ Endianness.little ∧ host ≠ Endianness.big then
    Except.error NewError.unsupportedArch
  else
    Except.ok { vec := bytesToWords host bs, swap := decide (endian ≠ host) }

/-- Byte buffer whose consecutive 8-byte groups are each reversed, as used to
state endianness symmetry. -/
def swapChunks8 : List Nat → List Nat
  | b0 :: b1 :: b2 :: b3 :: b4 :: b5 :: b6 :: b7 :: rest =>
    b7 :: b6 :: b5 :: b4 :: b3 :: b2 :: b1 :: b0 :: swapChunks8 rest
  | l => l

/-- Logical word at word index `idx`: the stored word after the byte swap
demanded by the flag. -/
def lword (b : BitVec) (idx : Nat) : Nat :=
  if b.swap then swapUint64 (b.vec.getD idx 0) else b.vec.getD idx 0

/-! Arithmetic bridges between the bit tricks of the source and `Nat`
division and modulus. -/

lemma shiftRight_six (i : Nat) : i >>> 6 = i / 64 := by
  rw [Nat.shiftRight_eq_div_pow]

lemma and_63 (i : Nat) : i &&& 63 = i % 64 := by
  have h : (63 : Nat) = 2 ^ 6 - 1 := by norm_num
  rw [h, Nat.and_pow_two_sub_one_eq_mod]

lemma allBits_eq : allBits = 2 ^ 64 - 1 := by norm_num [allBits]

lemma allBits_lt : allBits < 2 ^ 64 := by rw [allBits_eq]; norm_num

lemma testBit_allBits (k : Nat) : allBits.testBit k = decide (k < 64) := by
  rw [allBits_eq, Nat.testBit_two_pow_sub_one]

lemma and_two_pow_ne_zero_iff (w r : Nat) : w &&& 2 ^ r ≠ 0 ↔ w.testBit r = true := by
  constructor
  · intro h
    obtain ⟨i, hi⟩ := Nat.ne_zero_implies_bit_true h
    rw [Nat.testBit_and, Bool.and_eq_true] at hi
    have hr : r = i := by
      have h2 := hi.2
      rw [Nat.testBit_two_pow] at h2
      exact of_decide_eq_true h2
    rw [hr]
    exact hi.1
  · intro h hz
    have hbit : (w &&& 2 ^ r).testBit r = true := by
      rw [Nat.testBit_and, h, Nat.testBit_two_pow_self]
      rfl
    rw [hz] at hbit
    simp at hbit

lemma decide_mask (w r : Nat) : decide (w &&& (1 <<< r) ≠ 0) = w.testBit r := by
  rw [Nat.one_shiftLeft]
  by_cases h : w &&& 2 ^ r = 0
  · have hf : w.testBit r = false := by
      rcases ht : w.testBit r
      · rfl
      · exact absurd h ((and_two_pow_ne_zero_iff w r).2 ht)
    simp [h, hf]
  · simp [h, (and_two_pow_ne_zero_iff w r).1 h]

lemma shr_le (x s : Nat) : x >>> s ≤ x := by
  rw [Nat.shiftRight_eq_div_pow]
  exact Nat.div_le_self _ _

lemma swapUint64_lt (n : Nat) : swapUint64 n < 2 ^ 64 := by
  have hb : ∀ M s : Nat, (M + 1) * 2 ^ s ≤ 2 ^ 64 → (n &&& M) <<< s < 2 ^ 64 := by
    intro M s h
    rw [Nat.shiftLeft_eq]
    calc (n &&& M) * 2 ^ s ≤ M * 2 ^ s := Nat.mul_le_mul_right _ Nat.and_le_right
      _ < (M + 1) * 2 ^ s := (Nat.mul_lt_mul_right (Nat.two_pow_pos s)).2 (Nat.lt_succ_self M)
      _ ≤ 2 ^ 64 := h
  have hr : ∀ M s : Nat, M < 2 ^ 64 → (n &&& M) >>> s < 2 ^ 64 := by
    intro M s h
    exact lt_of_le_of_lt (le_trans (shr_le _ _) Nat.and_le_right) h
  unfold swapUint64
  refine Nat.or_lt_two_pow (Nat.or_lt_two_pow (Nat.or_lt_two_pow (Nat.or_lt_two_pow
    (Nat.or_lt_two_pow (Nat.or_lt_two_pow (Nat.or_lt_two_pow ?_ ?_) ?_) ?_) ?_) ?_) ?_) ?_
  · exact hb _ _ (by norm_num)
  · exact hb _ _ (by norm_num)
  · exact hb _ _ (by norm_num)
  · exact hb _ _ (by norm_num)
  · exact hr _ _ (by norm_num)
  · exact hr _ _ (by norm_num)
  · exact hr _ _ (by norm_num)
  · exact hr _ _ (by norm_num)

/-! Bit-level characterization of `swapUint64`: bit `k` of the swapped word is
bit `8 * (7 - k / 8) + k % 8` of the original word. -/

lemma testBit_mask0 (j : Nat) : (0x00000000000000FF : Nat).testBit j = decide (j < 8) := by
  have h : (0x00000000000000FF : Nat) = 2 ^ 8 - 1 := by norm_num
  rw [h, Nat.testBit_two_pow_sub_one]

lemma testBit_mask1 (j : Nat) :
    (0x000000000000FF00 : Nat).testBit j = (decide (8 ≤ j) && decide (j - 8 < 8)) := by
  have h : (0x000000000000FF00 : Nat) = (2 ^ 8 - 1) <<< 8 := by norm_num [Nat.shiftLeft_eq]
  rw [h, Nat.testBit_shiftLeft, Nat.testBit_two_pow_sub_one]

lemma testBit_mask2 (j : Nat) :
    (0x0000000000FF0000 : Nat).testBit j = (decide (16 ≤ j) && decide (j - 16 < 8)) := by
  have h : (0x0000000000FF0000 : Nat) = (2 ^ 8 - 1) <<< 16 := by norm_num [Nat.shiftLeft_eq]
  rw [h, Nat.testBit_shiftLeft, Nat.testBit_two_pow_sub_one]

lemma testBit_mask3 (j : Nat) :
    (0x00000000FF000000 : Nat).testBit j = (decide (24 ≤ j) && decide (j - 24 < 8)) := by
  have h : (0x00000000FF000000 : Nat) = (2 ^ 8 - 1) <<< 24 := by norm_num [Nat.shiftLeft_eq]
  rw [h, Nat.testBit_shiftLeft, Nat.testBit_two_pow_sub_one]

lemma testBit_mask4 (j : Nat) :
    (0x000000FF00000000 : Nat).testBit j = (decide (32 ≤ j) && decide (j - 32 < 8)) := by
  have h : (0x000000FF00000000 : Nat) = (2 ^ 8 - 1) <<< 32 := by norm_num [Nat.shiftLeft_eq]
  rw [h, Nat.testBit_shiftLeft, Nat.testBit_two_pow_sub_one]

lemma testBit_mask5 (j : Nat) :
    (0x0000FF0000000000 : Nat).testBit j = (decide (40 ≤ j) && decide (j - 40 < 8)) := by
  have h : (0x0000FF0000000000 : Nat) = (2 ^ 8 - 1) <<< 40 := by norm_num [Nat.shiftLeft_eq]
  rw [h, Nat.testBit_shiftLeft, Nat.testBit_two_pow_sub_one]

lemma testBit_mask6 (j : Nat) :
    (0x00FF000000000000 : Nat).testBit j = (decide (48 ≤ j) && decide (j - 48 < 8)) := by
  have h : (0x00FF000000000000 : Nat) = (2 ^ 8 - 1) <<< 48 := by norm_num [Nat.shiftLeft_eq]
  rw [h, Nat.testBit_shiftLeft, Nat.testBit_two_pow_sub_one]

lemma testBit_mask7 (j : Nat) :
    (0xFF00000000000000 : Nat).testBit j = (decide (56 ≤ j) && decide (j - 56 < 8)) := by
  have h : (0xFF00000000000000 : Nat) = (2 ^ 8 - 1) <<< 56 := by norm_num [Nat.shiftLeft_eq]
  rw [h, Nat.testBit_shiftLeft, Nat.testBit_two_pow_sub_one]

set_option maxHeartbeats 1000000 in
lemma testBit_swapUint64 (n k : Nat) (hk : k < 64) :
    (swapUint64 n).testBit k = n.testBit (8 * (7 - k / 8) + k % 8) := by
  interval_cases k <;>
  · simp only [swapUint64, Nat.testBit_or, Nat.testBit_shiftLeft, Nat.testBit_shiftRight,
      Nat.testBit_and, testBit_mask0, testBit_mask1, testBit_mask2, testBit_mask3,
      testBit_mask4, testBit_mask5, testBit_mask6, testBit_mask7]
    norm_num

lemma testBit_swapUint64_high (n k : Nat) (hk : 64 ≤ k) :
    (swapUint64 n).testBit k = false :=
  Nat.testBit_lt_two_pow
    (lt_of_lt_of_le (swapUint64_lt n) (Nat.pow_le_pow_right (by norm_num) hk))

lemma swapUint64_swapUint64 (n : Nat) (hn : n < 2 ^ 64) :
    swapUint64 (swapUint64 n) = n := by
  apply Nat.eq_of_testBit_eq
  intro k
  by_cases hk : k < 64
  · have h1 : 8 * (7 - k / 8) + k % 8 < 64 := by omega
    rw [testBit_swapUint64 _ _ hk, testBit_swapUint64 _ _ h1]
    congr 1
    omega
  · rw [testBit_swapUint64_high _ _ (by omega)]
    exact (Nat.testBit_lt_two_pow
      (lt_of_lt_of_le hn (Nat.pow_le_pow_right (by norm_num) (by omega)))).symm

lemma swapUint64_zero : swapUint64 0 = 0 := by decide

lemma swapUint64_eq_zero_iff (n : Nat) (hn : n < 2 ^ 64) :
    swapUint64 n = 0 ↔ n = 0 := by
  constructor
  · intro h
    have := swapUint64_swapUint64 n hn
    rw [h, swapUint64_zero] at this
    exact this.symm
  · intro h
    rw [h, swapUint64_zero]

lemma swapUint64_allBits : swapUint64 allBits = allBits := by decide

lemma swapUint64_eq_allBits_iff (n : Nat) (hn : n < 2 ^ 64) :
    swapUint64 n = allBits ↔ n = allBits := by
  constructor
  · intro h
    have := swapUint64_swapUint64 n hn
    rw [h, swapUint64_allBits] at this
    exact this.symm
  · intro h
    rw [h, swapUint64_allBits]

/-! Specifications of the trailing-zero and bit-length helpers. -/

lemma tzAux_le (f : Nat) : ∀ n, tzAux f n ≤ f := by
  induction f with
  | zero => intro n; simp [tzAux]
  | succ f ih =>
    intro n
    by_cases hp : n % 2 = 1 <;> simp [tzAux, hp]
    exact ih (n / 2)

lemma tzAux_zero (f : Nat) : tzAux f 0 = f := by
  induction f with
  | zero => rfl
  | succ f ih => simp [tzAux, ih]

lemma tzAux_spec (f : Nat) : ∀ n, n ≠ 0 → n < 2 ^ f →
    n.testBit (tzAux f n) = true ∧ ∀ k, k < tzAux f n → n.testBit k = false := by
  induction f with
  | zero => intro n h0 hf; omega
  | succ f ih =>
    intro n h0 hf
    by_cases hp : n % 2 = 1
    · refine ⟨?_, ?_⟩
      · simp [tzAux, hp, Nat.testBit_zero]
      · intro k hk
        simp [tzAux, hp] at hk
    · have h2 : n / 2 ≠ 0 := by omega
      have hlt : n / 2 < 2 ^ f := by
        have hpow : 2 ^ (f + 1) = 2 * 2 ^ f := by ring
        omega
      obtain ⟨ht, hmin⟩ := ih (n / 2) h2 hlt
      have htz : tzAux (f + 1) n = tzAux f (n / 2) + 1 := by simp [tzAux, hp]
      refine ⟨?_, ?_⟩
      · rw [htz, Nat.testBit_add_one]
        exact ht
      · intro k hk
        rw [htz] at hk
        cases k with
        | zero => simp [Nat.testBit_zero, hp]
        | succ k =>
          rw [Nat.testBit_add_one]
          exact hmin k (by omega)

lemma tzAux_lt (f n : Nat) (h0 : n ≠ 0) (hf : n < 2 ^ f) : tzAux f n < f := by
  have hge := Nat.testBit_implies_ge (tzAux_spec f n h0 hf).1
  have : 2 ^ tzAux f n < 2 ^ f := lt_of_le_of_lt hge hf
  exact (Nat.pow_lt_pow_iff_right (by norm_num)).1 this

lemma bitLenAux_zero (f : Nat) : bitLenAux f 0 = 0 := by
  cases f <;> simp [bitLenAux]

lemma two_pow_pred (L : Nat) (h : 1 ≤ L) : 2 ^ L = 2 * 2 ^ (L - 1) := by
  cases L with
  | zero => omega
  | succ m =>
    rw [pow_succ, Nat.succ_sub_one]
    ring

lemma bitLenAux_spec (f : Nat) : ∀ n, n < 2 ^ f → n ≠ 0 →
    2 ^ (bitLenAux f n - 1) ≤ n ∧ n < 2 ^ bitLenAux f n ∧
    1 ≤ bitLenAux f n ∧ bitLenAux f n ≤ f := by
  induction f with
  | zero => intro n hf h0; omega
  | succ f ih =>
    intro n hf h0
    have hbl : bitLenAux (f + 1) n = bitLenAux f (n / 2) + 1 := by simp [bitLenAux, h0]
    by_cases h2 : n / 2 = 0
    · have hn1 : n = 1 := by omega
      rw [hbl, h2, bitLenAux_zero]
      subst hn1
      norm_num
    · have hlt : n / 2 < 2 ^ f := by
        have hpow : 2 ^ (f + 1) = 2 * 2 ^ f := by ring
        omega
      obtain ⟨hlo, hhi, h1, hle⟩ := ih (n / 2) hlt h2
      rw [hbl]
      have hp1 : 2 ^ bitLenAux f (n / 2) = 2 * 2 ^ (bitLenAux f (n / 2) - 1) :=
        two_pow_pred _ h1
      have hp2 : 2 ^ (bitLenAux f (n / 2) + 1) = 2 * 2 ^ bitLenAux f (n / 2) := by ring
      refine ⟨?_, ?_, by omega, by omega⟩
      · simp only [Nat.add_sub_cancel]
        omega
      · omega

lemma msb_spec (n : Nat) (h0 : n ≠ 0) (hn : n < 2 ^ 64) :
    n.testBit (bitLenAux 64 n - 1) = true ∧
    ∀ k, bitLenAux 64 n ≤ k → n.testBit k = false := by
  obtain ⟨hlo, hhi, h1, _⟩ := bitLenAux_spec 64 n hn h0
  refine ⟨?_, ?_⟩
  · rw [Nat.testBit_to_div_mod]
    have hdiv : n / 2 ^ (bitLenAux 64 n - 1) = 1 := by
      have hone : 1 ≤ n / 2 ^ (bitLenAux 64 n - 1) :=
        (Nat.one_le_div_iff (Nat.two_pow_pos _)).2 hlo
      have htwo : n / 2 ^ (bitLenAux 64 n - 1) < 2 := by
        rw [Nat.div_lt_iff_lt_mul (Nat.two_pow_pos _)]
        have := two_pow_pred _ h1
        omega
      omega
    rw [hdiv]
    decide
  · intro k hk
    exact Nat.testBit_lt_two_pow
      (lt_of_lt_of_le hhi (Nat.pow_le_pow_right (by norm_num) hk))

/-! List access helpers. -/

lemma getD_set_self (l : List Nat) (i w : Nat) (h : i < l.length) :
    (l.set i w).getD i 0 = w := by
  induction l generalizing i with
  | nil => simp at h
  | cons a t ih =>
    cases i with
    | zero => rfl
    | succ n =>
      simp only [List.set_cons_succ, List.getD_cons_succ]
      exact ih n (by simpa using h)

lemma getD_set_ne (l : List Nat) (i j w : Nat) (h : i ≠ j) :
    (l.set i w).getD j 0 = l.getD j 0 := by
  induction l generalizing i j with
  | nil => simp
  | cons a t ih =>
    cases i with
    | zero =>
      cases j with
      | zero => omega
      | succ m => simp
    | succ n =>
      cases j with
      | zero => rfl
      | succ m =>
        simp only [List.set_cons_succ, List.getD_cons_succ]
        exact ih n m (by omega)

lemma getD_drop (l : List Nat) : ∀ t m : Nat, (l.drop t).getD m 0 = l.getD (t + m) 0 := by
  induction l with
  | nil => intro t m; simp
  | cons a r ih =>
    intro t m
    cases t with
    | zero => simp
    | succ t =>
      simp only [List.drop_succ_cons]
      rw [ih t m]
      have h : t + 1 + m = (t + m) + 1 := by omega
      rw [h]
      rfl

lemma getD_lt (l : List Nat) (h : ∀ w ∈ l, w < 2 ^ 64) (idx : Nat) :
    l.getD idx 0 < 2 ^ 64 := by
  induction l generalizing idx with
  | nil => simp
  | cons a t ih =>
    cases idx with
    | zero => exact h a (by simp)
    | succ n =>
      simp only [List.getD_cons_succ]
      exact ih (fun w hw => h w (by simp [hw])) n

/-! Bridging lemmas between the operations and the logical word view. -/

lemma lword_lt (b : BitVec) (h : WF b) (idx : Nat) : lword b idx < 2 ^ 64 := by
  unfold lword
  split
  · exact swapUint64_lt _
  · exact getD_lt b.vec h idx

lemma Test_oob (b : BitVec) (i : Nat) (h : b.vec.length ≤ i / 64) : Test b i = false := by
  simp only [Test, shiftRight_six]
  rw [if_pos h]

lemma Test_eq (b : BitVec) (i : Nat) (h : i / 64 < b.vec.length) :
    Test b i = (lword b (i / 64)).testBit (i % 64) := by
  simp only [Test, shiftRight_six, and_63, lword]
  rw [if_neg (by omega)]
  cases hs : b.swap
  · simp only [hs, Bool.false_eq_true, if_false]
    exact decide_mask _ _
  · simp only [hs, if_true]
    exact decide_mask _ _

lemma two_pow_mod64_lt (i : Nat) : 2 ^ (i % 64) < 2 ^ 64 :=
  (Nat.pow_lt_pow_iff_right (by norm_num)).2 (Nat.mod_lt _ (by norm_num))

/-! Characterization of `Set` and `Clear` through the logical word view. -/

lemma Set_oob (b : BitVec) (i : Nat) (h : b.vec.length ≤ i / 64) : Set b i = (b, false) := by
  simp only [Set, shiftRight_six]
  rw [if_pos h]

lemma Set_swap (b : BitVec) (i : Nat) : (Set b i).1.swap = b.swap := by
  simp only [Set, shiftRight_six]
  by_cases h1 : b.vec.length ≤ i / 64
  · simp [h1]
  · cases hs : b.swap <;> simp [h1, hs]

lemma Set_length (b : BitVec) (i : Nat) : (Set b i).1.vec.length = b.vec.length := by
  simp only [Set, shiftRight_six]
  by_cases h1 : b.vec.length ≤ i / 64
  · simp [h1]
  · cases hs : b.swap <;> simp [h1, hs]

lemma Set_snd (b : BitVec) (i : Nat) (h : i / 64 < b.vec.length) : (Set b i).2 = true := by
  have h1 : ¬(b.vec.length ≤ i / 64) := by omega
  simp only [Set, shiftRight_six]
  cases hs : b.swap <;> simp [h1, hs]

lemma Set_getD_other (b : BitVec) (i k : Nat) (hk : k ≠ i / 64) :
    (Set b i).1.vec.getD k 0 = b.vec.getD k 0 := by
  simp only [Set, shiftRight_six]
  by_cases h1 : b.vec.length ≤ i / 64
  · simp [h1]
  · rw [if_neg h1]
    cases hs : b.swap <;> simp only [hs, Bool.false_eq_true, if_false, if_true] <;>
      exact getD_set_ne b.vec (i / 64) k _ (by omega)

lemma Set_lword_other (b : BitVec) (i k : Nat) (hk : k ≠ i / 64) :
    lword (Set b i).1 k = lword b k := by
  unfold lword
  rw [Set_swap, Set_getD_other b i k hk]

lemma Set_lword_self (b : BitVec) (i : Nat) (h : i / 64 < b.vec.length) :
    lword (Set b i).1 (i / 64) = lword b (i / 64) ||| 2 ^ (i % 64) := by
  have h1 : ¬(b.vec.length ≤ i / 64) := by omega
  simp only [Set, lword, shiftRight_six, and_63, Nat.one_shiftLeft, if_neg h1]
  cases hs : b.swap
  · simp only [hs, Bool.false_eq_true, if_false]
    rw [getD_set_self _ _ _ h]
  · simp only [hs, if_true]
    rw [getD_set_self _ _ _ h]
    exact swapUint64_swapUint64 _ (Nat.or_lt_two_pow (swapUint64_lt _) (two_pow_mod64_lt i))

lemma Clear_oob (b : BitVec) (i : Nat) (h : b.vec.length ≤ i / 64) : Clear b i = (b, false) := by
  simp only [Clear, shiftRight_six]
  rw [if_pos h]

lemma Clear_swap (b : BitVec) (i : Nat) : (Clear b i).1.swap = b.swap := by
  simp only [Clear, shiftRight_six]
  by_cases h1 : b.vec.length ≤ i / 64
  · simp [h1]
  · cases hs : b.swap <;> simp [h1, hs]

lemma Clear_length (b : BitVec) (i : Nat) : (Clear b i).1.vec.length = b.vec.length := by
  simp only [Clear, shiftRight_six]
  by_cases h1 : b.vec.length ≤ i / 64
  · simp [h1]
  · cases hs : b.swap <;> simp [h1, hs]

lemma Clear_snd (b : BitVec) (i : Nat) (h : i / 64 < b.vec.length) : (Clear b i).2 = true := by
  have h1 : ¬(b.vec.length ≤ i / 64) := by omega
  simp only [Clear, shiftRight_six]
  cases hs : b.swap <;> simp [h1, hs]

lemma Clear_getD_other (b : BitVec) (i k : Nat) (hk : k ≠ i / 64) :
    (Clear b i).1.vec.getD k 0 = b.vec.getD k 0 := by
  simp only [Clear, shiftRight_six]
  by_cases h1 : b.vec.length ≤ i / 64
  · simp [h1]
  · rw [if_neg h1]
    cases hs : b.swap <;> simp only [hs, Bool.false_eq_true, if_false, if_true] <;>
      exact getD_set_ne b.vec (i / 64) k _ (by omega)

lemma Clear_lword_other (b : BitVec) (i k : Nat) (hk : k ≠ i / 64) :
    lword (Clear b i).1 k = lword b k := by
  unfold lword
  rw [Clear_swap, Clear_getD_other b i k hk]

lemma Clear_lword_self (b : BitVec) (i : Nat) (h : i / 64 < b.vec.length) :
    lword (Clear b i).1 (i / 64) = lword b (i / 64) &&& (2 ^ (i % 64) ^^^ allBits) := by
  have h1 : ¬(b.vec.length ≤ i / 64) := by omega
  simp only [Clear, lword, shiftRight_six, and_63, Nat.one_shiftLeft, if_neg h1]
  cases hs : b.swap
  · simp only [hs, Bool.false_eq_true, if_false]
    rw [getD_set_self _ _ _ h]
  · simp only [hs, if_true]
    rw [getD_set_self _ _ _ h]
    exact swapUint64_swapUint64 _
      (Nat.and_lt_two_pow _ (Nat.xor_lt_two_pow (two_pow_mod64_lt i) allBits_lt))

/-! Specification of the forward word scan and of the logical word view of the
search loops. -/

lemma scanIdx_some (p : Nat → Bool) : ∀ (l : List Nat) (s j : Nat),
    scanIdx p l s = some j →
    s ≤ j ∧ j - s < l.length ∧ p (l.getD (j - s) 0) = true ∧
    ∀ m, m < j - s → p (l.getD m 0) = false := by
  intro l
  induction l with
  | nil => intro s j h; simp [scanIdx] at h
  | cons w rest ih =>
    intro s j h
    by_cases hp : p w = true
    · rw [scanIdx, if_pos hp] at h
      obtain rfl : s = j := by injection h
      refine ⟨le_refl s, by simp, by simpa using hp, fun m hm => by omega⟩
    · rw [scanIdx, if_neg hp] at h
      obtain ⟨h1, h2, h3, h4⟩ := ih (s + 1) j h
      have hjs : 1 ≤ j - s := by omega
      refine ⟨by omega, by simp; omega, ?_, ?_⟩
      · have he : j - s = (j - (s + 1)) + 1 := by omega
        rw [he, List.getD_cons_succ]
        exact h3
      · intro m hm
        cases m with
        | zero => simpa using Bool.eq_false_iff.2 hp
        | succ m =>
          rw [List.getD_cons_succ]
          exact h4 m (by omega)

lemma scanIdx_none (p : Nat → Bool) : ∀ (l : List Nat) (s : Nat),
    scanIdx p l s = none → ∀ m, m < l.length → p (l.getD m 0) = false := by
  intro l
  induction l with
  | nil => intro s h m hm; simp at hm
  | cons w rest ih =>
    intro s h m hm
    by_cases hp : p w = true
    · rw [scanIdx, if_pos hp] at h
      exact absurd h (by simp)
    · rw [scanIdx, if_neg hp] at h
      cases m with
      | zero => simpa using Bool.eq_false_iff.2 hp
      | succ m =>
        rw [List.getD_cons_succ]
        exact ih (s + 1) h m (by simpa using hm)

lemma scan_drop_some (p : Nat → Bool) (l : List Nat) (t j : Nat)
    (h : scanIdx p (l.drop t) t = some j) :
    t ≤ j ∧ j < l.length ∧ p (l.getD j 0) = true ∧
    ∀ m, t ≤ m → m < j → p (l.getD m 0) = false := by
  obtain ⟨h1, h2, h3, h4⟩ := scanIdx_some p _ _ _ h
  rw [List.length_drop] at h2
  rw [getD_drop] at h3
  rw [show t + (j - t) = j by omega] at h3
  refine ⟨h1, by omega, h3, ?_⟩
  intro m hm1 hm2
  have hh := h4 (m - t) (by omega)
  rw [getD_drop, show t + (m - t) = m by omega] at hh
  exact hh

lemma scan_drop_none (p : Nat → Bool) (l : List Nat) (t : Nat)
    (h : scanIdx p (l.drop t) t = none) :
    ∀ m, t ≤ m → m < l.length → p (l.getD m 0) = false := by
  intro m hm1 hm2
  have hh := scanIdx_none p _ _ h (m - t) (by rw [List.length_drop]; omega)
  rw [getD_drop, show t + (m - t) = m by omega] at hh
  exact hh

lemma trailingZeros64_spec (n : Nat) (h0 : n ≠ 0) (hn : n < 2 ^ 64) :
    n.testBit (trailingZeros64 n) = true ∧
    ∀ k, k < trailingZeros64 n → n.testBit k = false :=
  tzAux_spec 64 n h0 hn

lemma trailingZeros64_lt (n : Nat) (h0 : n ≠ 0) (hn : n < 2 ^ 64) :
    trailingZeros64 n < 64 :=
  tzAux_lt 64 n h0 hn

lemma lword_eq_zero_iff (b : BitVec) (hWF : WF b) (idx : Nat) :
    lword b idx = 0 ↔ b.vec.getD idx 0 = 0 := by
  unfold lword
  split
  · exact swapUint64_eq_zero_iff _ (getD_lt b.vec hWF idx)
  · exact Iff.rfl

lemma lword_eq_allBits_iff (b : BitVec) (hWF : WF b) (idx : Nat) :
    lword b idx = allBits ↔ b.vec.getD idx 0 = allBits := by
  unfold lword
  split
  · exact swapUint64_eq_allBits_iff _ (getD_lt b.vec hWF idx)
  · exact Iff.rfl

lemma FindFirstOne_eq (b : BitVec) (i : Nat) :
    FindFirstOne b i =
      if b.vec.length ≤ i / 64 then none
      else if lword b (i / 64) >>> (i % 64) ≠ 0 then
        some (i + trailingZeros64 (lword b (i / 64) >>> (i % 64)))
      else
        match scanIdx (fun w => decide (w ≠ 0)) (b.vec.drop (i / 64 + 1)) (i / 64 + 1) with
        | some j => some (j * 64 + trailingZeros64 (lword b j))
        | none => none := by
  cases hs : b.swap <;>
    simp [FindFirstOne, lword, hs, shiftRight_six, and_63]

/-! Byte-level lemmas for the endianness-symmetry property. -/

lemma byte_testBit_high (b : Nat) (hb : b < 256) : ∀ j, 8 ≤ j → b.testBit j = false := by
  intro j hj
  apply Nat.testBit_lt_two_pow
  calc b < 256 := hb
    _ = 2 ^ 8 := by norm_num
    _ ≤ 2 ^ j := Nat.pow_le_pow_right (by norm_num) hj

lemma wordLE_lt (b0 b1 b2 b3 b4 b5 b6 b7 : Nat) (h0 : b0 < 256) (h1 : b1 < 256)
    (h2 : b2 < 256) (h3 : b3 < 256) (h4 : b4 < 256) (h5 : b5 < 256) (h6 : b6 < 256)
    (h7 : b7 < 256) : wordLE b0 b1 b2 b3 b4 b5 b6 b7 < 2 ^ 64 := by
  have key : ∀ x s : Nat, x < 256 → 256 * 2 ^ s ≤ 2 ^ 64 → x <<< s < 2 ^ 64 := by
    intro x s hx hs
    rw [Nat.shiftLeft_eq]
    calc x * 2 ^ s < 256 * 2 ^ s := (Nat.mul_lt_mul_right (Nat.two_pow_pos s)).2 hx
      _ ≤ 2 ^ 64 := hs
  unfold wordLE
  refine Nat.or_lt_two_pow (Nat.or_lt_two_pow (Nat.or_lt_two_pow (Nat.or_lt_two_pow
    (Nat.or_lt_two_pow (Nat.or_lt_two_pow (Nat.or_lt_two_pow ?_ ?_) ?_) ?_) ?_) ?_) ?_) ?_
  · exact lt_of_lt_of_le h0 (by norm_num)
  · exact key _ _ h1 (by norm_num)
  · exact key _ _ h2 (by norm_num)
  · exact key _ _ h3 (by norm_num)
  · exact key _ _ h4 (by norm_num)
  · exact key _ _ h5 (by norm_num)
  · exact key _ _ h6 (by norm_num)
  · exact key _ _ h7 (by norm_num)

set_option maxHeartbeats 2000000 in
lemma swapUint64_wordLE (b0 b1 b2 b3 b4 b5 b6 b7 : Nat) (h0 : b0 < 256) (h1 : b1 < 256)
    (h2 : b2 < 256) (h3 : b3 < 256) (h4 : b4 < 256) (h5 : b5 < 256) (h6 : b6 < 256)
    (h7 : b7 < 256) :
    swapUint64 (wordLE b0 b1 b2 b3 b4 b5 b6 b7) = wordLE b7 b6 b5 b4 b3 b2 b1 b0 := by
  apply Nat.eq_of_testBit_eq
  intro k
  by_cases hk : k < 64
  · rw [testBit_swapUint64 _ _ hk]
    interval_cases k <;>
      simp [wordLE, Nat.testBit_or, Nat.testBit_shiftLeft,
        byte_testBit_high b0 h0, byte_testBit_high b1 h1, byte_testBit_high b2 h2,
        byte_testBit_high b3 h3, byte_testBit_high b4 h4, byte_testBit_high b5 h5,
        byte_testBit_high b6 h6, byte_testBit_high b7 h7]
  · rw [Nat.testBit_lt_two_pow, Nat.testBit_lt_two_pow]
    · exact lt_of_lt_of_le (wordLE_lt b7 b6 b5 b4 b3 b2 b1 b0 h7 h6 h5 h4 h3 h2 h1 h0)
        (Nat.pow_le_pow_right (by norm_num) (by omega))
    · exact lt_of_lt_of_le (swapUint64_lt _)
        (Nat.pow_le_pow_right (by norm_num) (by omega))

lemma swapUint64_wordBE (b0 b1 b2 b3 b4 b5 b6 b7 : Nat) (h0 : b0 < 256) (h1 : b1 < 256)
    (h2 : b2 < 256) (h3 : b3 < 256) (h4 : b4 < 256) (h5 : b5 < 256) (h6 : b6 < 256)
    (h7 : b7 < 256) :
    swapUint64 (wordBE b0 b1 b2 b3 b4 b5 b6 b7) = wordLE b0 b1 b2 b3 b4 b5 b6 b7 :=
  swapUint64_wordLE b7 b6 b5 b4 b3 b2 b1 b0 h7 h6 h5 h4 h3 h2 h1 h0

lemma compl_testBit (v t : Nat) (ht : t < 64) :
    (v ^^^ allBits).testBit t = !(v.testBit t) := by
  rw [Nat.testBit_xor, testBit_allBits]
  simp [ht]

lemma FindFirstZero_eq (b : BitVec) (i : Nat) :
    FindFirstZero b i =
      if b.vec.length ≤ i / 64 then none
      else if trailingZeros64 ((lword b (i / 64) >>> (i % 64)) ^^^ allBits) < 64 - i % 64 then
        some (i + trailingZeros64 ((lword b (i / 64) >>> (i % 64)) ^^^ allBits))
      else
        match scanIdx (fun w => decide (w ≠ allBits)) (b.vec.drop (i / 64 + 1)) (i / 64 + 1) with
        | some j => some (j * 64 + trailingZeros64 (lword b j ^^^ allBits))
        | none => none := by
  cases hs : b.swap <;>
    simp [FindFirstZero, lword, hs, shiftRight_six, and_63]

lemma floLoop_eq (b : BitVec) (i : Nat) :
    floLoop b.swap b.vec (i + 1) =
      if b.vec.getD i 0 ≠ 0 then
        some ((i + 1) * 64 - leadingZeros64 (lword b i) - 1)
      else
        floLoop b.swap b.vec i := by
  cases hs : b.swap <;> simp [floLoop, lword, hs]

lemma floLoop_spec (b : BitVec) (hWF : WF b) : ∀ n, n ≤ b.vec.length →
    (∀ j, floLoop b.swap b.vec n = some j →
      j < n * 64 ∧ Test b j = true ∧ ∀ k, j < k → k < n * 64 → Test b k = false) ∧
    (floLoop b.swap b.vec n = none → ∀ k, k < n * 64 → Test b k = false) := by
  intro n
  induction n with
  | zero =>
    intro _
    exact ⟨fun j hj => by simp [floLoop] at hj, fun _ k hk => by omega⟩
  | succ n ih =>
    intro hn
    rw [floLoop_eq]
    by_cases hraw : b.vec.getD n 0 ≠ 0
    · rw [if_pos hraw]
      have hlw_ne : lword b n ≠ 0 := fun hc =>
        hraw ((lword_eq_zero_iff b hWF n).1 hc)
      have hlw_lt : lword b n < 2 ^ 64 := lword_lt b hWF n
      obtain ⟨hlo, hhi, h1, h64⟩ := bitLenAux_spec 64 (lword b n) hlw_lt hlw_ne
      obtain ⟨hmsb, hhigh⟩ := msb_spec (lword b n) hlw_ne hlw_lt
      have hlz : leadingZeros64 (lword b n) = 64 - bitLenAux 64 (lword b n) := rfl
      refine ⟨?_, fun hnone => by simp at hnone⟩
      intro j hj
      obtain rfl : (n + 1) * 64 - leadingZeros64 (lword b n) - 1 = j := by injection hj
      have hrval : (n + 1) * 64 - leadingZeros64 (lword b n) - 1 =
          n * 64 + (bitLenAux 64 (lword b n) - 1) := by omega
      refine ⟨by omega, ?_, ?_⟩
      · rw [hrval, Test_eq _ _ (by omega)]
        rw [show (n * 64 + (bitLenAux 64 (lword b n) - 1)) / 64 = n by omega]
        rw [show (n * 64 + (bitLenAux 64 (lword b n) - 1)) % 64 =
          bitLenAux 64 (lword b n) - 1 by omega]
        exact hmsb
      · intro k hk1 hk2
        have hkdiv : k / 64 = n := by omega
        rw [Test_eq _ _ (by omega), hkdiv]
        exact hhigh (k % 64) (by omega)
    · rw [if_neg hraw]
      have hraw0 : b.vec.getD n 0 = 0 := by simpa using hraw
      have hlw0 : lword b n = 0 := (lword_eq_zero_iff b hWF n).2 hraw0
      have hwordz : ∀ k, k / 64 = n → Test b k = false := by
        intro k hkdiv
        rw [Test_eq _ _ (by omega), hkdiv, hlw0]
        simp
      obtain ⟨ihs, ihn⟩ := ih (by omega)
      refine ⟨?_, ?_⟩
      · intro j hj
        obtain ⟨hj1, hj2, hj3⟩ := ihs j hj
        refine ⟨by omega, hj2, ?_⟩
        intro k hk1 hk2
        by_cases hkn : k < n * 64
        · exact hj3 k hk1 hkn
        · exact hwordz k (by omega)
      · intro hnone k hk
        by_cases hkn : k < n * 64
        · exact ihn hnone k hkn
        · exact hwordz k (by omega)

lemma bytesToWords_length (host : Endianness) (bs : List Nat) :
    (bytesToWords host bs).length = bs.length / 8 := by
  induction bs using bytesToWords.induct host with
  | case1 b0 b1 b2 b3 b4 b5 b6 b7 rest ih =>
    simp [bytesToWords, ih]
    omega
  | case2 l h =>
    match l, h with
    | [], _ => simp [bytesToWords]
    | [a], _ => simp [bytesToWords]
    | [a, b], _ => simp [bytesToWords]
    | [a, b, c], _ => simp [bytesToWords]
    | [a, b, c, d], _ => simp [bytesToWords]
    | [a, b, c, d, e], _ => simp [bytesToWords]
    | [a, b, c, d, e, f], _ => simp [bytesToWords]
    | [a, b, c, d, e, f, g], _ => simp [bytesToWords]
    | a :: b :: c :: d :: e :: f :: g :: h0 :: rest, hh =>
      exact absurd rfl (fun heq => hh a b c d e f g h0 rest heq)

lemma swapChunks8_length : ∀ bs : List Nat, (swapChunks8 bs).length = bs.length := by
  intro bs
  induction bs using swapChunks8.induct with
  | case1 b0 b1 b2 b3 b4 b5 b6 b7 rest ih =>
    simp [swapChunks8, ih]
  | case2 l h =>
    match l, h with
    | [], _ => simp [swapChunks8]
    | [a], _ => simp [swapChunks8]
    | [a, b], _ => simp [swapChunks8]
    | [a, b, c], _ => simp [swapChunks8]
    | [a, b, c, d], _ => simp [swapChunks8]
    | [a, b, c, d, e], _ => simp [swapChunks8]
    | [a, b, c, d, e, f], _ => simp [swapChunks8]
    | [a, b, c, d, e, f, g], _ => simp [swapChunks8]
    | a :: b :: c :: d :: e :: f :: g :: h0 :: rest, hh =>
      exact absurd rfl (fun heq => hh a b c d e f g h0 rest heq)

lemma bytesToWords_little_swapChunks8 : ∀ bs : List Nat,
    bytesToWords Endianness.little (swapChunks8 bs) = bytesToWords Endianness.big bs := by
  intro bs
  induction bs using swapChunks8.induct with
  | case1 b0 b1 b2 b3 b4 b5 b6 b7 rest ih =>
    simp [swapChunks8, bytesToWords, wordBE, ih]
  | case2 l h =>
    match l, h with
    | [], _ => simp [swapChunks8, bytesToWords]
    | [a], _ => simp [swapChunks8, bytesToWords]
    | [a, b], _ => simp [swapChunks8, bytesToWords]
    | [a, b, c], _ => simp [swapChunks8, bytesToWords]
    | [a, b, c, d], _ => simp [swapChunks8, bytesToWords]
    | [a, b, c, d, e], _ => simp [swapChunks8, bytesToWords]
    | [a, b, c, d, e, f], _ => simp [swapChunks8, bytesToWords]
    | [a, b, c, d, e, f, g], _ => simp [swapChunks8, bytesToWords]
    | a :: b :: c :: d :: e :: f :: g :: h0 :: rest, hh =>
      exact absurd rfl (fun heq => hh a b c d e f g h0 rest heq)

lemma bytesToWords_big_swapChunks8 : ∀ bs : List Nat,
    bytesToWords Endianness.big (swapChunks8 bs) = bytesToWords Endianness.little bs := by
  intro bs
  induction bs using swapChunks8.induct with
  | case1 b0 b1 b2 b3 b4 b5 b6 b7 rest ih =>
    simp [swapChunks8, bytesToWords, wordBE, ih]
  | case2 l h =>
    match l, h with
    | [], _ => simp [swapChunks8, bytesToWords]
    | [a], _ => simp [swapChunks8, bytesToWords]
    | [a, b], _ => simp [swapChunks8, bytesToWords]
    | [a, b, c], _ => simp [swapChunks8, bytesToWords]
    | [a, b, c, d], _ => simp [swapChunks8, bytesToWords]
    | [a, b, c, d, e], _ => simp [swapChunks8, bytesToWords]
    | [a, b, c, d, e, f], _ => simp [swapChunks8, bytesToWords]
    | [a, b, c, d, e, f, g], _ => simp [swapChunks8, bytesToWords]
    | a :: b :: c :: d :: e :: f :: g :: h0 :: rest, hh =>
      exact absurd rfl (fun heq => hh a b c d e f g h0 rest heq)

lemma bytesToWords_pointwise : ∀ bs : List Nat, (∀ x ∈ bs, x < 256) →
    ∀ idx, idx < (bytesToWords Endianness.big bs).length →
      swapUint64 ((bytesToWords Endianness.big bs).getD idx 0) =
      (bytesToWords Endianness.little bs).getD idx 0 := by
  intro bs
  induction bs using bytesToWords.induct Endianness.big with
  | case1 b0 b1 b2 b3 b4 b5 b6 b7 rest ih =>
    intro hb idx hidx
    cases idx with
    | zero =>
      simp only [bytesToWords, List.getD_cons_zero]
      exact swapUint64_wordBE b0 b1 b2 b3 b4 b5 b6 b7
        (hb b0 (by simp)) (hb b1 (by simp)) (hb b2 (by simp)) (hb b3 (by simp))
        (hb b4 (by simp)) (hb b5 (by simp)) (hb b6 (by simp)) (hb b7 (by simp))
    | succ n =>
      simp only [bytesToWords, List.getD_cons_succ, List.length_cons] at hidx ⊢
      exact ih (fun x hx => hb x (by simp [hx])) n (by omega)
  | case2 l h =>
    intro hb idx hidx
    exfalso
    match l, h, hidx with
    | [], _, hidx => simp [bytesToWords] at hidx
    | [a], _, hidx => simp [bytesToWords] at hidx
    | [a, b], _, hidx => simp [bytesToWords] at hidx
    | [a, b, c], _, hidx => simp [bytesToWords] at hidx
    | [a, b, c, d], _, hidx => simp [bytesToWords] at hidx
    | [a, b, c, d, e], _, hidx => simp [bytesToWords] at hidx
    | [a, b, c, d, e, f], _, hidx => simp [bytesToWords] at hidx
    | [a, b, c, d, e, f, g], _, hidx => simp [bytesToWords] at hidx
    | a :: b :: c :: d :: e :: f :: g :: h0 :: rest, hh, hidx =>
      exact absurd rfl (fun heq => hh a b c d e f g h0 rest heq)

/-! Claim theorems. -/

/-- C1: for every vector and every bit index within capacity, `Set i` followed
by `Test i` returns true and `Clear i` followed by `Test i` returns false,
whatever the prior buffer contents and the swap flag. -/
theorem set_clear_round_trip (b : BitVec) (i : Nat) (h : i < 64 * b.vec.length) :
    Test (Set b i).1 i = true ∧ Test (Clear b i).1 i = false := by
  have hidx : i / 64 < b.vec.length := by omega
  have hr : i % 64 < 64 := Nat.mod_lt _ (by norm_num)
  constructor
  · rw [Test_eq _ _ (by rw [Set_length]; exact hidx), Set_lword_self b i hidx]
    simp [Nat.testBit_or, Nat.testBit_two_pow_self]
  · rw [Test_eq _ _ (by rw [Clear_length]; exact hidx), Clear_lword_self b i hidx]
    simp [Nat.testBit_and, Nat.testBit_xor, Nat.testBit_two_pow_self, testBit_allBits, hr]

/-- Witness for C1 at a concrete vector and index. -/
theorem set_clear_round_trip_witness :
    9 < 64 * (BitVec.mk [0, 0] false).vec.length ∧
    (Test (Set (BitVec.mk [0, 0] false) 9).1 9 = true ∧
     Test (Clear (BitVec.mk [0, 0] false) 9).1 9 = false) :=
  ⟨by decide, set_clear_round_trip (BitVec.mk [0, 0] false) 9 (by decide)⟩

/-- C6: for every index whose word index is at or past the word count, `Test`
returns false, and `Set` and `Clear` return false leaving the vector
unchanged. -/
theorem out_of_range_soft (b : BitVec) (i : Nat) (h : b.vec.length ≤ i / 64) :
    Test b i = false ∧ Set b i = (b, false) ∧ Clear b i = (b, false) :=
  ⟨Test_oob b i h, Set_oob b i h, Clear_oob b i h⟩

/-- Witness for C6 on a one-word vector at index 64. -/
theorem out_of_range_soft_witness :
    (BitVec.mk [5] true).vec.length ≤ 64 / 64 ∧
    (Test (BitVec.mk [5] true) 64 = false ∧
     Set (BitVec.mk [5] true) 64 = (BitVec.mk [5] true, false) ∧
     Clear (BitVec.mk [5] true) 64 = (BitVec.mk [5] true, false)) :=
  ⟨by decide, out_of_range_soft (BitVec.mk [5] true) 64 (by decide)⟩

/-- C9: `Set` and `Clear` preserve the word count (hence the capacity) and the
swap flag; `Test` and the three scans read the vector without returning a
modified state in this embedding, so only the mutating operations are at
issue. -/
theorem capacity_and_flag_invariant (b : BitVec) (i : Nat) :
    (Set b i).1.vec.length = b.vec.length ∧ (Set b i).1.swap = b.swap ∧
    (Clear b i).1.vec.length = b.vec.length ∧ (Clear b i).1.swap = b.swap :=
  ⟨Set_length b i, Set_swap b i, Clear_length b i, Clear_swap b i⟩

/-- C10: `Set i` and `Clear i` touch at most the word holding bit `i`, and for
every index `j` other than `i` the value of `Test j` is unchanged. -/
theorem set_clear_frame (b : BitVec) (i j k : Nat) (hi : i < 64 * b.vec.length)
    (hj : j ≠ i) (hk : k ≠ i / 64) :
    (Set b i).1.vec.getD k 0 = b.vec.getD k 0 ∧
    (Clear b i).1.vec.getD k 0 = b.vec.getD k 0 ∧
    Test (Set b i).1 j = Test b j ∧ Test (Clear b i).1 j = Test b j := by
  have hidx : i / 64 < b.vec.length := by omega
  refine ⟨Set_getD_other b i k hk, Clear_getD_other b i k hk, ?_, ?_⟩
  · by_cases hjr : j / 64 < b.vec.length
    · rw [Test_eq _ _ (by rw [Set_length]; exact hjr), Test_eq _ _ hjr]
      by_cases hw : j / 64 = i / 64
      · rw [hw, Set_lword_self b i hidx]
        have hne : i % 64 ≠ j % 64 := by omega
        simp [Nat.testBit_or, Nat.testBit_two_pow_of_ne hne]
      · rw [Set_lword_other b i _ hw]
    · rw [Test_oob _ _ (by rw [Set_length]; omega), Test_oob _ _ (by omega)]
  · by_cases hjr : j / 64 < b.vec.length
    · rw [Test_eq _ _ (by rw [Clear_length]; exact hjr), Test_eq _ _ hjr]
      by_cases hw : j / 64 = i / 64
      · rw [hw, Clear_lword_self b i hidx]
        have hne : i % 64 ≠ j % 64 := by omega
        have hj64 : j % 64 < 64 := Nat.mod_lt _ (by norm_num)
        simp [Nat.testBit_and, Nat.testBit_xor, Nat.testBit_two_pow_of_ne hne,
          testBit_allBits, hj64]
      · rw [Clear_lword_other b i _ hw]
    · rw [Test_oob _ _ (by rw [Clear_length]; omega), Test_oob _ _ (by omega)]

/-- C2: for a fixed host endianness, the vector built over a buffer declared
Little and the vector built over the 8-byte-wise byte-swapped buffer declared
Big return identical `Test` results at every index. -/
theorem endian_symmetry (hostE : Endianness)
    (hhost : hostE = Endianness.little ∨ hostE = Endianness.big)
    (bs : List Nat) (hbytes : ∀ x ∈ bs, x < 256) (hlen : bs.length % 8 = 0) :
    ∃ v1 v2,
      New bs Endianness.little hostE = Except.ok v1 ∧
      New (swapChunks8 bs) Endianness.big hostE = Except.ok v2 ∧
      ∀ i, Test v1 i = Test v2 i := by
  have hlen2 : (swapChunks8 bs).length % 8 = 0 := by
    rw [swapChunks8_length]
    exact hlen
  have hL : (bytesToWords Endianness.big bs).length =
      (bytesToWords Endianness.little bs).length := by
    rw [bytesToWords_length, bytesToWords_length]
  rcases hhost with rfl | rfl
  · refine ⟨BitVec.mk (bytesToWords Endianness.little bs) false,
      BitVec.mk (bytesToWords Endianness.big bs) true, ?_, ?_, ?_⟩
    · simp [New, hlen]
    · rw [show bytesToWords Endianness.big bs =
          bytesToWords Endianness.little (swapChunks8 bs) from
          (bytesToWords_little_swapChunks8 bs).symm]
      simp [New, hlen2]
    · intro i
      by_cases hir : i / 64 < (bytesToWords Endianness.little bs).length
      · rw [Test_eq (BitVec.mk (bytesToWords Endianness.little bs) false) i hir,
          Test_eq (BitVec.mk (bytesToWords Endianness.big bs) true) i
            (show i / 64 < (bytesToWords Endianness.big bs).length by omega)]
        simp only [lword, if_true, Bool.false_eq_true, if_false]
        rw [bytesToWords_pointwise bs hbytes (i / 64) (by omega)]
      · rw [Test_oob (BitVec.mk (bytesToWords Endianness.little bs) false) i
            (show (bytesToWords Endianness.little bs).length ≤ i / 64 by omega),
          Test_oob (BitVec.mk (bytesToWords Endianness.big bs) true) i
            (show (bytesToWords Endianness.big bs).length ≤ i / 64 by omega)]
  · refine ⟨BitVec.mk (bytesToWords Endianness.big bs) true,
      BitVec.mk (bytesToWords Endianness.little bs) false, ?_, ?_, ?_⟩
    · simp [New, hlen]
    · rw [show bytesToWords Endianness.little bs =
          bytesToWords Endianness.big (swapChunks8 bs) from
          (bytesToWords_big_swapChunks8 bs).symm]
      simp [New, hlen2]
    · intro i
      by_cases hir : i / 64 < (bytesToWords Endianness.little bs).length
      · rw [Test_eq (BitVec.mk (bytesToWords Endianness.big bs) true) i
            (show i / 64 < (bytesToWords Endianness.big bs).length by omega),
          Test_eq (BitVec.mk (bytesToWords Endianness.little bs) false) i hir]
        simp only [lword, if_true, Bool.false_eq_true, if_false]
        rw [bytesToWords_pointwise bs hbytes (i / 64) (by omega)]
      · rw [Test_oob (BitVec.mk (bytesToWords Endianness.big bs) true) i
            (show (bytesToWords Endianness.big bs).length ≤ i / 64 by omega),
          Test_oob (BitVec.mk (bytesToWords Endianness.little bs) false) i
            (show (bytesToWords Endianness.little bs).length ≤ i / 64 by omega)]

/-- Witness for C2: the buffer 1,2,...,16 declared Little on a little host
against its chunk-reversed copy declared Big, checked at bit 9. -/
theorem endian_symmetry_witness :
    Test (BitVec.mk (bytesToWords Endianness.little
      [1, 2, 3, 4, 5, 6, 7, 8, 9, 10, 11, 12, 13, 14, 15, 16]) false) 9 =
    Test (BitVec.mk (bytesToWords Endianness.big
      [1, 2, 3, 4, 5, 6, 7, 8, 9, 10, 11, 12, 13, 14, 15, 16]) true) 9 := by
  obtain ⟨v1, v2, h1, h2, h3⟩ := endian_symmetry Endianness.little (Or.inl rfl)
    [1, 2, 3, 4, 5, 6, 7, 8, 9, 10, 11, 12, 13, 14, 15, 16]
    (by decide) (by decide)
  have hcomp1 : New [1, 2, 3, 4, 5, 6, 7, 8, 9, 10, 11, 12, 13, 14, 15, 16]
      Endianness.little Endianness.little =
      Except.ok (BitVec.mk (bytesToWords Endianness.little
        [1, 2, 3, 4, 5, 6, 7, 8, 9, 10, 11, 12, 13, 14, 15, 16]) false) := by rfl
  have hcomp2 : New (swapChunks8 [1, 2, 3, 4, 5, 6, 7, 8, 9, 10, 11, 12, 13, 14, 15, 16])
      Endianness.big Endianness.little =
      Except.ok (BitVec.mk (bytesToWords Endianness.big
        [1, 2, 3, 4, 5, 6, 7, 8, 9, 10, 11, 12, 13, 14, 15, 16]) true) := by rfl
  injection h1.symm.trans hcomp1 with e1
  injection h2.symm.trans hcomp2 with e2
  rw [← e1, ← e2]
  exact h3 9

/-- C3: `FindFirstOne from` returns the smallest bit index at or after `from`
whose `Test` is true when one exists, returns none when the word index of
`from` is at or past the word count, and returns none when no set bit exists
from `from` through the last word. -/
theorem FindFirstOne_spec (b : BitVec) (i : Nat) (hWF : WF b) :
    (b.vec.length ≤ i / 64 → FindFirstOne b i = none) ∧
    (∀ j, FindFirstOne b i = some j →
      i ≤ j ∧ Test b j = true ∧ ∀ k, i ≤ k → k < j → Test b k = false) ∧
    (FindFirstOne b i = none → ∀ k, i ≤ k → Test b k = false) := by
  rw [FindFirstOne_eq]
  by_cases h0 : b.vec.length ≤ i / 64
  · rw [if_pos h0]
    exact ⟨fun _ => rfl, fun j hj => by simp at hj,
      fun _ k hk => Test_oob b k (by omega)⟩
  · rw [if_neg h0]
    have hlw : lword b (i / 64) < 2 ^ 64 := lword_lt b hWF (i / 64)
    by_cases hv : lword b (i / 64) >>> (i % 64) ≠ 0
    · rw [if_pos hv]
      have hvlt : lword b (i / 64) >>> (i % 64) < 2 ^ (64 - i % 64) := by
        rw [Nat.shiftRight_eq_div_pow]
        rw [Nat.div_lt_iff_lt_mul (Nat.two_pow_pos _)]
        calc lword b (i / 64) < 2 ^ 64 := hlw
          _ = 2 ^ (64 - i % 64) * 2 ^ (i % 64) := by
            rw [← pow_add]
            congr 1
            omega
      have hvlt64 : lword b (i / 64) >>> (i % 64) < 2 ^ 64 :=
        lt_of_lt_of_le hvlt (Nat.pow_le_pow_right (by norm_num) (by omega))
      obtain ⟨htb, hmin⟩ := trailingZeros64_spec _ hv hvlt64
      have ht_lt : trailingZeros64 (lword b (i / 64) >>> (i % 64)) < 64 - i % 64 := by
        have hge := Nat.testBit_implies_ge htb
        by_contra hcon
        push_neg at hcon
        have hmono : 2 ^ (64 - i % 64) ≤ 2 ^ trailingZeros64 (lword b (i / 64) >>> (i % 64)) :=
          Nat.pow_le_pow_right (by norm_num) hcon
        omega
      refine ⟨fun hh => absurd hh h0, ?_, fun hnone => by simp at hnone⟩
      intro j hj
      obtain rfl : i + trailingZeros64 (lword b (i / 64) >>> (i % 64)) = j := by
        injection hj
      refine ⟨by omega, ?_, ?_⟩
      · have hjdiv : (i + trailingZeros64 (lword b (i / 64) >>> (i % 64))) / 64 = i / 64 := by
          omega
        have hjmod : (i + trailingZeros64 (lword b (i / 64) >>> (i % 64))) % 64 =
            i % 64 + trailingZeros64 (lword b (i / 64) >>> (i % 64)) := by
          omega
        rw [Test_eq _ _ (by omega), hjdiv, hjmod]
        rwa [Nat.testBit_shiftRight] at htb
      · intro k hk1 hk2
        have hkdiv : k / 64 = i / 64 := by omega
        rw [Test_eq _ _ (by omega), hkdiv]
        have hh := hmin (k % 64 - i % 64) (by omega)
        rw [Nat.testBit_shiftRight] at hh
        rwa [show i % 64 + (k % 64 - i % 64) = k % 64 by omega] at hh
    · rw [if_neg hv]
      have hv0 : lword b (i / 64) >>> (i % 64) = 0 := by simpa using hv
      have hword0 : ∀ k, i ≤ k → k / 64 = i / 64 → Test b k = false := by
        intro k hk1 hkdiv
        rw [Test_eq _ _ (by omega), hkdiv]
        have hh : (lword b (i / 64) >>> (i % 64)).testBit (k % 64 - i % 64) = false := by
          rw [hv0]
          simp
        rw [Nat.testBit_shiftRight] at hh
        rwa [show i % 64 + (k % 64 - i % 64) = k % 64 by omega] at hh
      rcases hscan : scanIdx (fun w => decide (w ≠ 0)) (b.vec.drop (i / 64 + 1)) (i / 64 + 1)
        with _ | j
      · simp only [hscan]
        have hall := scan_drop_none _ _ _ hscan
        refine ⟨fun hh => absurd hh h0, fun j hj => by simp at hj, fun _ k hk => ?_⟩
        by_cases hkL : k / 64 < b.vec.length
        · by_cases hkdiv : k / 64 = i / 64
          · exact hword0 k hk hkdiv
          · have hraw := hall (k / 64) (by omega) hkL
            have hraw0 : b.vec.getD (k / 64) 0 = 0 := by simpa using hraw
            rw [Test_eq _ _ hkL, (lword_eq_zero_iff b hWF (k / 64)).2 hraw0]
            simp
        · exact Test_oob b k (by omega)
      · simp only [hscan]
        obtain ⟨hj1, hjL, hjp, hjmin⟩ := scan_drop_some _ _ _ _ hscan
        have hraw_ne : b.vec.getD j 0 ≠ 0 := by simpa using hjp
        have hlwj_ne : lword b j ≠ 0 := fun hc => hraw_ne ((lword_eq_zero_iff b hWF j).1 hc)
        have hlwj_lt : lword b j < 2 ^ 64 := lword_lt b hWF j
        obtain ⟨htbj, hminj⟩ := trailingZeros64_spec _ hlwj_ne hlwj_lt
        have htj64 : trailingZeros64 (lword b j) < 64 := trailingZeros64_lt _ hlwj_ne hlwj_lt
        refine ⟨fun hh => absurd hh h0, ?_, fun hnone => by simp at hnone⟩
        intro r hr
        obtain rfl : j * 64 + trailingZeros64 (lword b j) = r := by injection hr
        refine ⟨by omega, ?_, ?_⟩
        · have hdiv : (j * 64 + trailingZeros64 (lword b j)) / 64 = j := by omega
          have hmod : (j * 64 + trailingZeros64 (lword b j)) % 64 =
              trailingZeros64 (lword b j) := by omega
          rw [Test_eq _ _ (by omega), hdiv, hmod]
          exact htbj
        · intro k hk1 hk2
          have hkL : k / 64 < b.vec.length := by omega
          by_cases hkdiv : k / 64 = i / 64
          · exact hword0 k hk1 hkdiv
          · by_cases hkj : k / 64 = j
            · rw [Test_eq _ _ hkL, hkj]
              exact hminj (k % 64) (by omega)
            · have hraw := hjmin (k / 64) (by omega) (by omega)
              have hraw0 : b.vec.getD (k / 64) 0 = 0 := by simpa using hraw
              rw [Test_eq _ _ hkL, (lword_eq_zero_iff b hWF (k / 64)).2 hraw0]
              simp

/-- Witness for C3 on a two-word vector with only bit 9 set, scanning from 0. -/
theorem FindFirstOne_spec_witness :
    WF (BitVec.mk [512, 0] false) ∧
    Test (BitVec.mk [512, 0] false) 9 = true ∧
    Test (BitVec.mk [512, 0] false) 3 = false :=
  ⟨show ∀ w ∈ ([512, 0] : List Nat), w < 2 ^ 64 by decide,
   ((FindFirstOne_spec (BitVec.mk [512, 0] false) 0
     (show ∀ w ∈ ([512, 0] : List Nat), w < 2 ^ 64 by decide)).2.1 9 (by decide)).2.1,
   ((FindFirstOne_spec (BitVec.mk [512, 0] false) 0
     (show ∀ w ∈ ([512, 0] : List Nat), w < 2 ^ 64 by decide)).2.1 9
     (by decide)).2.2 3 (by decide) (by decide)⟩

/-- C4: `FindFirstZero from` returns the smallest bit index at or after `from`
below the capacity whose `Test` is false when one exists (all earlier in-range
indices at or after `from` being set); it returns none when every bit from
`from` through the last word is set, and none when the word index of `from`
is at or past the word count. -/
theorem FindFirstZero_spec (b : BitVec) (i : Nat) (hWF : WF b) :
    (b.vec.length ≤ i / 64 → FindFirstZero b i = none) ∧
    (∀ j, FindFirstZero b i = some j →
      i ≤ j ∧ j < 64 * b.vec.length ∧ Test b j = false ∧
      ∀ k, i ≤ k → k < j → Test b k = true) ∧
    (FindFirstZero b i = none → ∀ k, i ≤ k → k < 64 * b.vec.length → Test b k = true) := by
  rw [FindFirstZero_eq]
  by_cases h0 : b.vec.length ≤ i / 64
  · rw [if_pos h0]
    exact ⟨fun _ => rfl, fun j hj => by simp at hj, fun _ k hk1 hk2 => by omega⟩
  · rw [if_neg h0]
    have hlw : lword b (i / 64) < 2 ^ 64 := lword_lt b hWF (i / 64)
    have hvlt : lword b (i / 64) >>> (i % 64) < 2 ^ (64 - i % 64) := by
      rw [Nat.shiftRight_eq_div_pow]
      rw [Nat.div_lt_iff_lt_mul (Nat.two_pow_pos _)]
      calc lword b (i / 64) < 2 ^ 64 := hlw
        _ = 2 ^ (64 - i % 64) * 2 ^ (i % 64) := by
          rw [← pow_add]
          congr 1
          omega
    have hvlt64 : lword b (i / 64) >>> (i % 64) < 2 ^ 64 :=
      lt_of_lt_of_le hvlt (Nat.pow_le_pow_right (by norm_num) (by omega))
    have hcvlt : (lword b (i / 64) >>> (i % 64)) ^^^ allBits < 2 ^ 64 :=
      Nat.xor_lt_two_pow hvlt64 allBits_lt
    by_cases htr : trailingZeros64 ((lword b (i / 64) >>> (i % 64)) ^^^ allBits) < 64 - i % 64
    · rw [if_pos htr]
      have hcv_ne : (lword b (i / 64) >>> (i % 64)) ^^^ allBits ≠ 0 := by
        intro hc
        rw [hc] at htr
        have : trailingZeros64 0 = 64 := tzAux_zero 64
        omega
      obtain ⟨htb, hmin⟩ := trailingZeros64_spec _ hcv_ne hcvlt
      refine ⟨fun hh => absurd hh h0, ?_, fun hnone => by simp at hnone⟩
      intro j hj
      obtain rfl :
          i + trailingZeros64 ((lword b (i / 64) >>> (i % 64)) ^^^ allBits) = j := by
        injection hj
      refine ⟨by omega, by omega, ?_, ?_⟩
      · have hjdiv :
            (i + trailingZeros64 ((lword b (i / 64) >>> (i % 64)) ^^^ allBits)) / 64 =
            i / 64 := by omega
        have hjmod :
            (i + trailingZeros64 ((lword b (i / 64) >>> (i % 64)) ^^^ allBits)) % 64 =
            i % 64 + trailingZeros64 ((lword b (i / 64) >>> (i % 64)) ^^^ allBits) := by
          omega
        rw [Test_eq _ _ (by omega), hjdiv, hjmod]
        rw [compl_testBit _ _ (by omega)] at htb
        have hvb : (lword b (i / 64) >>> (i % 64)).testBit
            (trailingZeros64 ((lword b (i / 64) >>> (i % 64)) ^^^ allBits)) = false := by
          simpa using htb
        rw [Nat.testBit_shiftRight] at hvb
        exact hvb
      · intro k hk1 hk2
        have hkdiv : k / 64 = i / 64 := by omega
        rw [Test_eq _ _ (by omega), hkdiv]
        have hc := hmin (k % 64 - i % 64) (by omega)
        rw [compl_testBit _ _ (by omega)] at hc
        have hvb : (lword b (i / 64) >>> (i % 64)).testBit (k % 64 - i % 64) = true := by
          simpa using hc
        rw [Nat.testBit_shiftRight] at hvb
        rwa [show i % 64 + (k % 64 - i % 64) = k % 64 by omega] at hvb
    · rw [if_neg htr]
      have htrge : 64 - i % 64 ≤
          trailingZeros64 ((lword b (i / 64) >>> (i % 64)) ^^^ allBits) := by omega
      have hcvbits : ∀ m,
          m < trailingZeros64 ((lword b (i / 64) >>> (i % 64)) ^^^ allBits) →
          ((lword b (i / 64) >>> (i % 64)) ^^^ allBits).testBit m = false := by
        by_cases hc : (lword b (i / 64) >>> (i % 64)) ^^^ allBits = 0
        · intro m _
          rw [hc]
          simp
        · exact (trailingZeros64_spec _ hc hcvlt).2
      have hword1 : ∀ k, i ≤ k → k / 64 = i / 64 → Test b k = true := by
        intro k hk1 hkdiv
        rw [Test_eq _ _ (by omega), hkdiv]
        have hc := hcvbits (k % 64 - i % 64) (by omega)
        rw [compl_testBit _ _ (by omega)] at hc
        have hvb : (lword b (i / 64) >>> (i % 64)).testBit (k % 64 - i % 64) = true := by
          simpa using hc
        rw [Nat.testBit_shiftRight] at hvb
        rwa [show i % 64 + (k % 64 - i % 64) = k % 64 by omega] at hvb
      rcases hscan : scanIdx (fun w => decide (w ≠ allBits))
          (b.vec.drop (i / 64 + 1)) (i / 64 + 1) with _ | j
      · simp only [hscan]
        have hall := scan_drop_none _ _ _ hscan
        refine ⟨fun hh => absurd hh h0, fun j hj => by simp at hj, fun _ k hk1 hk2 => ?_⟩
        have hkL : k / 64 < b.vec.length := by omega
        by_cases hkdiv : k / 64 = i / 64
        · exact hword1 k hk1 hkdiv
        · have hraw := hall (k / 64) (by omega) hkL
          have hrawA : b.vec.getD (k / 64) 0 = allBits := by simpa using hraw
          rw [Test_eq _ _ hkL, (lword_eq_allBits_iff b hWF (k / 64)).2 hrawA,
            testBit_allBits]
          simp [Nat.mod_lt k (show 0 < 64 by norm_num)]
      · simp only [hscan]
        obtain ⟨hj1, hjL, hjp, hjmin⟩ := scan_drop_some _ _ _ _ hscan
        have hraw_ne : b.vec.getD j 0 ≠ allBits := by simpa using hjp
        have hlwj_ne : lword b j ≠ allBits := fun hc =>
          hraw_ne ((lword_eq_allBits_iff b hWF j).1 hc)
        have hlwj_lt : lword b j < 2 ^ 64 := lword_lt b hWF j
        have hclw_ne : lword b j ^^^ allBits ≠ 0 := fun hc =>
          hlwj_ne (Nat.xor_eq_zero.1 hc)
        have hclw_lt : lword b j ^^^ allBits < 2 ^ 64 :=
          Nat.xor_lt_two_pow hlwj_lt allBits_lt
        obtain ⟨htbj, hminj⟩ := trailingZeros64_spec _ hclw_ne hclw_lt
        have htj64 : trailingZeros64 (lword b j ^^^ allBits) < 64 :=
          trailingZeros64_lt _ hclw_ne hclw_lt
        refine ⟨fun hh => absurd hh h0, ?_, fun hnone => by simp at hnone⟩
        intro r hr
        obtain rfl : j * 64 + trailingZeros64 (lword b j ^^^ allBits) = r := by
          injection hr
        refine ⟨by omega, by omega, ?_, ?_⟩
        · have hdiv : (j * 64 + trailingZeros64 (lword b j ^^^ allBits)) / 64 = j := by
            omega
          have hmod : (j * 64 + trailingZeros64 (lword b j ^^^ allBits)) % 64 =
              trailingZeros64 (lword b j ^^^ allBits) := by omega
          rw [Test_eq _ _ (by omega), hdiv, hmod]
          rw [compl_testBit _ _ htj64] at htbj
          simpa using htbj
        · intro k hk1 hk2
          have hkL : k / 64 < b.vec.length := by omega
          by_cases hkdiv : k / 64 = i / 64
          · exact hword1 k hk1 hkdiv
          · by_cases hkj : k / 64 = j
            · rw [Test_eq _ _ hkL, hkj]
              have hc := hminj (k % 64) (by omega)
              rw [compl_testBit _ _ (Nat.mod_lt k (show 0 < 64 by norm_num))] at hc
              simpa using hc
            · have hraw := hjmin (k / 64) (by omega) (by omega)
              have hrawA : b.vec.getD (k / 64) 0 = allBits := by simpa using hraw
              rw [Test_eq _ _ hkL, (lword_eq_allBits_iff b hWF (k / 64)).2 hrawA,
                testBit_allBits]
              simp [Nat.mod_lt k (show 0 < 64 by norm_num)]

/-- Witness for C4 on a two-word vector whose first eleven bits are set,
scanning from 9. -/
theorem FindFirstZero_spec_witness :
    WF (BitVec.mk [2047, 0] false) ∧
    (Test (BitVec.mk [2047, 0] false) 11 = false ∧
     Test (BitVec.mk [2047, 0] false) 10 = true) :=
  ⟨show ∀ w ∈ ([2047, 0] : List Nat), w < 2 ^ 64 by decide,
   ((FindFirstZero_spec (BitVec.mk [2047, 0] false) 9
       (show ∀ w ∈ ([2047, 0] : List Nat), w < 2 ^ 64 by decide)).2.1 11
       (by decide)).2.2.1,
   ((FindFirstZero_spec (BitVec.mk [2047, 0] false) 9
       (show ∀ w ∈ ([2047, 0] : List Nat), w < 2 ^ 64 by decide)).2.1 11
       (by decide)).2.2.2 10 (by decide) (by decide)⟩

/-- C5: `FindLastOne` returns the largest set bit index — the most significant
set bit of the highest nonzero word — and none when every word is zero. -/
theorem FindLastOne_spec (b : BitVec) (hWF : WF b) :
    (∀ j, FindLastOne b = some j →
      j < 64 * b.vec.length ∧ Test b j = true ∧ ∀ k, j < k → Test b k = false) ∧
    (FindLastOne b = none → ∀ k, Test b k = false) := by
  obtain ⟨hs, hn⟩ := floLoop_spec b hWF b.vec.length (le_refl _)
  constructor
  · intro j hj
    obtain ⟨hj1, hj2, hj3⟩ := hs j hj
    refine ⟨by omega, hj2, ?_⟩
    intro k hk
    by_cases hkr : k < b.vec.length * 64
    · exact hj3 k hk hkr
    · exact Test_oob b k (by omega)
  · intro hnone k
    by_cases hkr : k < b.vec.length * 64
    · exact hn hnone k hkr
    · exact Test_oob b k (by omega)

/-- Witness for C5 on a two-word vector with only bit 73 set. -/
theorem FindLastOne_spec_witness :
    WF (BitVec.mk [0, 512] false) ∧
    (73 < 64 * (BitVec.mk [0, 512] false).vec.length ∧
     Test (BitVec.mk [0, 512] false) 73 = true ∧
     Test (BitVec.mk [0, 512] false) 100 = false) :=
  ⟨show ∀ w ∈ ([0, 512] : List Nat), w < 2 ^ 64 by decide,
   ((FindLastOne_spec (BitVec.mk [0, 512] false)
       (show ∀ w ∈ ([0, 512] : List Nat), w < 2 ^ 64 by decide)).1 73 (by decide)).1,
   ((FindLastOne_spec (BitVec.mk [0, 512] false)
       (show ∀ w ∈ ([0, 512] : List Nat), w < 2 ^ 64 by decide)).1 73 (by decide)).2.1,
   ((FindLastOne_spec (BitVec.mk [0, 512] false)
       (show ∀ w ∈ ([0, 512] : List Nat), w < 2 ^ 64 by decide)).1 73
       (by decide)).2.2 100 (by decide)⟩

/-- C7: construction validates the buffer length, the declared endianness and
the host endianness in this order, returns the matching error, and on success
yields word count = byte length / 8 with the swap flag set exactly when the
declared and host endianness differ. -/
theorem New_validation_order (bs : List Nat) (e hst : Endianness) :
    (bs.length % 8 ≠ 0 → New bs e hst = Except.error NewError.invalidLength) ∧
    (bs.length % 8 = 0 → e ≠ Endianness.little → e ≠ Endianness.big →
      New bs e hst = Except.error NewError.invalidEndianness) ∧
    (bs.length % 8 = 0 → (e = Endianness.little ∨ e = Endianness.big) →
      hst ≠ Endianness.little → hst ≠ Endianness.big →
      New bs e hst = Except.error NewError.unsupportedArch) ∧
    (bs.length % 8 = 0 → (e = Endianness.little ∨ e = Endianness.big) →
      (hst = Endianness.little ∨ hst = Endianness.big) →
      New bs e hst = Except.ok (BitVec.mk (bytesToWords hst bs) (decide (e ≠ hst))) ∧
      (bytesToWords hst bs).length = bs.length / 8) := by
  refine ⟨?_, ?_, ?_, ?_⟩
  · intro h1
    simp [New, h1]
  · intro h1 h2 h3
    simp [New, h1, h2, h3]
  · intro h1 h2 h3 h4
    have he : ¬(e ≠ Endianness.little ∧ e ≠ Endianness.big) := by tauto
    simp [New, h1, he, h3, h4]
  · intro h1 h2 h3
    have he : ¬(e ≠ Endianness.little ∧ e ≠ Endianness.big) := by tauto
    have hh : ¬(hst ≠ Endianness.little ∧ hst ≠ Endianness.big) := by tauto
    exact ⟨by simp [New, h1, he, hh], bytesToWords_length hst bs⟩

/-- Witness for C7: each validation outcome at a concrete input. -/
theorem New_validation_order_witness :
    New [0] Endianness.little Endianness.little = Except.error NewError.invalidLength ∧
    New [] Endianness.unknown Endianness.little = Except.error NewError.invalidEndianness ∧
    New [] Endianness.little Endianness.unknown = Except.error NewError.unsupportedArch ∧
    New (List.replicate 8 0) Endianness.big Endianness.little =
      Except.ok (BitVec.mk (bytesToWords Endianness.little (List.replicate 8 0))
        (decide (Endianness.big ≠ Endianness.little))) := by
  refine ⟨(New_validation_order [0] Endianness.little Endianness.little).1 (by decide),
    (New_validation_order [] Endianness.unknown Endianness.little).2.1
      (by decide) (by decide) (by decide),
    (New_validation_order [] Endianness.little Endianness.unknown).2.2.1
      (by decide) (by decide) (by decide) (by decide),
    ((New_validation_order (List.replicate 8 0) Endianness.big Endianness.little).2.2.2
      (by decide) (by decide) (by decide)).1⟩

/-- C8: the concrete scenario of the spec: a 16-zero-byte buffer declared and
hosted little endian; after setting bit 9, the reads and scans return the
stated values. -/
theorem concrete_scenario :
    ∃ v : BitVec,
      New (List.replicate 16 0) Endianness.little Endianness.little = Except.ok v ∧
      v.swap = false ∧ v.vec.length = 2 ∧
      Test (Set v 9).1 9 = true ∧ Test (Set v 9).1 8 = false ∧
      FindFirstOne (Set v 9).1 0 = some 9 ∧
      FindFirstZero (Set v 9).1 9 = some 10 ∧
      FindLastOne (Set v 9).1 = some 9 := by
  refine ⟨BitVec.mk [0, 0] false, rfl, rfl, rfl, ?_, ?_, ?_, ?_, ?_⟩ <;> decide

/-- Witness for C10 at concrete inputs: setting or clearing bit 9 leaves word 1
and bit 10 untouched. -/
theorem set_clear_frame_witness :
    (9 < 64 * (BitVec.mk [3, 7] true).vec.length ∧ 10 ≠ 9 ∧ 1 ≠ 9 / 64) ∧
    ((Set (BitVec.mk [3, 7] true) 9).1.vec.getD 1 0 = (BitVec.mk [3, 7] true).vec.getD 1 0 ∧
     (Clear (BitVec.mk [3, 7] true) 9).1.vec.getD 1 0 = (BitVec.mk [3, 7] true).vec.getD 1 0 ∧
     Test (Set (BitVec.mk [3, 7] true) 9).1 10 = Test (BitVec.mk [3, 7] true) 10 ∧
     Test (Clear (BitVec.mk [3, 7] true) 9).1 10 = Test (BitVec.mk [3, 7] true) 10) :=
  ⟨⟨by decide, by decide, by decide⟩,
   set_clear_frame (BitVec.mk [3, 7] true) 9 10 1 (by decide) (by decide) (by decide)⟩

end zcbit
